import Mathlib

/-! Verification of the `merkletreelib` Merkle tree core.

A shallow embedding of `src/tree.rs` (and the hash wiring of `src/hash.rs`)
from the `merkletreelib` crate, together with theorems settling the
specification's claims about it.

Byte strings are modelled as `List Nat`; the SHA-256 collaborator of
`src/hash.rs` is an external, trusted primitive, so every definition and
theorem is parametrised by an arbitrary digest function
`H : List Nat → List Nat`.  No claim below needs any cryptographic property
of `H`.  A small concrete `testHash` instantiates `H` in witnesses.
-/

/-- Digests: the source stores `[u8; 32]`; modelled as a list of byte values. -/
abbrev Digest := List Nat

/-- `Direction` from src/tree.rs: which side of a hash combination a sibling
digest belongs on. -/
inductive Direction : Type where
  | Left : Direction
  | Right : Direction
deriving DecidableEq, Repr

/-- `MerkleNode` from src/tree.rs: a hash plus optional left/right children.
A node with both children absent is a leaf. -/
inductive MerkleNode : Type where
  | mk (hash : Digest) (left : Option MerkleNode) (right : Option MerkleNode)

/-- Field accessor for `MerkleNode.hash`. -/
def MerkleNode.hash : MerkleNode → Digest
  | .mk h _ _ => h

/-- Field accessor for `MerkleNode.left`. -/
def MerkleNode.left : MerkleNode → Option MerkleNode
  | .mk _ l _ => l

/-- Field accessor for `MerkleNode.right`. -/
def MerkleNode.right : MerkleNode → Option MerkleNode
  | .mk _ _ r => r

/-- `MerkleTree` from src/tree.rs: optional root node plus the stored leaf
digests, one per pushed value, in insertion order. -/
structure MerkleTree : Type where
  root : Option MerkleNode
  leaves : List Digest

/-- `MerkleTree::get_root` from src/tree.rs: the root digest, when present. -/
def MerkleTree.get_root (t : MerkleTree) : Option Digest :=
  t.root.map (fun n => n.hash)

/-- `build_leaves_array` from src/tree.rs: one childless node per value,
hashing each value, order preserved. -/
def build_leaves_array (H : List Nat → Digest) (values : List (List Nat)) :
    List MerkleNode :=
  values.map (fun value => MerkleNode.mk (H value) none none)

/-- Parent-node construction inside the while loop of
`build_merkle_tree_recursively`: digest `H (left.hash ++ right.hash)`,
children owned by the parent. -/
def combineNode (H : List Nat → Digest) (l r : MerkleNode) : MerkleNode :=
  MerkleNode.mk (H (l.hash ++ r.hash)) (some l) (some r)

/-- The while loop of `build_merkle_tree_recursively` in src/tree.rs: scan the
level in steps of two, pairing `nodes[i]` with `nodes[i+1]`; an unpaired final
node (odd level length) is combined with a copy of itself. -/
def pairUp (H : List Nat → Digest) : List MerkleNode → List MerkleNode
  | [] => []
  | [x] => [combineNode H x x]
  | x :: y :: rest => combineNode H x y :: pairUp H rest

/-- Each pairing pass halves the level length, rounding up. -/
theorem pairUp_length (H : List Nat → Digest) :
    ∀ ns : List MerkleNode, (pairUp H ns).length = (ns.length + 1) / 2
  | [] => by simp [pairUp]
  | [_] => by simp [pairUp]
  | _ :: _ :: rest => by
    simp only [pairUp, List.length_cons, pairUp_length H rest]
    omega

/-- `build_merkle_tree_recursively` from src/tree.rs: reduce a level to a
single root by repeated pairing.  A one-node level is returned unchanged.
The source is never called on an empty level (callers guard it); that case is
given a dummy node here to make the function total. -/
def build_merkle_tree_recursively (H : List Nat → Digest) :
    List MerkleNode → MerkleNode
  | [] => MerkleNode.mk [] none none
  | [n] => n
  | a :: b :: rest =>
      build_merkle_tree_recursively H (pairUp H (a :: b :: rest))
termination_by ns => ns.length
decreasing_by simp [pairUp_length]; omega

/-- `MerkleTree::from_bytes` from src/tree.rs: build the leaf level, then the
tree when the leaf level is non-empty; record the leaf digests. -/
def MerkleTree.from_bytes (H : List Nat → Digest) (values : List (List Nat)) :
    MerkleTree :=
  let leaves := build_leaves_array H values
  let root :=
    if leaves.isEmpty then none
    else some (build_merkle_tree_recursively H leaves)
  ⟨root, leaves.map (fun n => n.hash)⟩

/-- `MerkleTree::push` from src/tree.rs: append the hashed value to `leaves`,
rebuild childless nodes for every stored leaf digest, and rebuild the whole
tree over them. -/
def MerkleTree.push (H : List Nat → Digest) (t : MerkleTree) (value : List Nat) :
    MerkleTree :=
  let leaf_hashed := H value
  let leaves := t.leaves ++ [leaf_hashed]
  let nodes := leaves.map (fun h => MerkleNode.mk h none none)
  let new_tree :=
    if nodes.isEmpty then none
    else some (build_merkle_tree_recursively H nodes)
  ⟨new_tree, leaves⟩

/-- `dfs_generate_proof` from src/tree.rs: depth-first search for the target
digest, left subtree first; on success the sibling of each node on the path is
pushed while unwinding, so the proof runs from the leaf's immediate sibling up
to the sibling just below the root.  The Rust version pushes into a mutable
vector and returns a boolean; since nothing is ever pushed on a failing
branch, this pure version returns the pushed list on success. -/
def dfs_generate_proof : MerkleNode → Digest → Option (List (Digest × Direction))
  | .mk h none none, target => if h = target then some [] else none
  | .mk _ (some l) (some r), target =>
      match dfs_generate_proof l target with
      | some p => some (p ++ [(r.hash, Direction.Right)])
      | none =>
        match dfs_generate_proof r target with
        | some p => some (p ++ [(l.hash, Direction.Left)])
        | none => none
  | .mk _ (some l) none, target => dfs_generate_proof l target
  | .mk _ none (some r), target => dfs_generate_proof r target

/-- `MerkleTree::generate_proof` from src/tree.rs: absent on an empty tree,
otherwise the depth-first search result. -/
def MerkleTree.generate_proof (t : MerkleTree) (target : Digest) :
    Option (List (Digest × Direction)) :=
  t.root.bind (fun root => dfs_generate_proof root target)

/-- One iteration of the verification loop in `verify_proof`
(src/tree.rs): a `Left` sibling is concatenated in front of the running
digest, a `Right` sibling behind it, and the result is hashed. -/
def verifyStep (H : List Nat → Digest) (current : Digest)
    (p : Digest × Direction) : Digest :=
  match p.2 with
  | Direction.Left => H (p.1 ++ current)
  | Direction.Right => H (current ++ p.1)

/-- `verify_proof` from src/tree.rs: fold the proof over the leaf digest and
compare with the claimed root digest. -/
def verify_proof (H : List Nat → Digest) (leaf_hash : Digest)
    (proof : List (Digest × Direction)) (root_hash : Digest) : Bool :=
  decide (proof.foldl (verifyStep H) leaf_hash = root_hash)

/-- In-order digests of the childless nodes reachable by the search: the leaf
fringe of a node.  One-child nodes (never built by this library) contribute
only the reachable side, matching `dfs_generate_proof`. -/
def leafHashes : MerkleNode → List Digest
  | .mk h none none => [h]
  | .mk _ (some l) (some r) => leafHashes l ++ leafHashes r
  | .mk _ (some l) none => leafHashes l
  | .mk _ none (some r) => leafHashes r

/-- Depth of a node: longest chain of child edges below it. -/
def MerkleNode.depth : MerkleNode → Nat
  | .mk _ none none => 0
  | .mk _ (some l) (some r) => 1 + max l.depth r.depth
  | .mk _ (some l) none => 1 + l.depth
  | .mk _ none (some r) => 1 + r.depth

/-- Modelled from the spec (§4.5): the in-order list of `(sibling path, leaf
digest)` pairs, one per leaf of the node, the path running from the leaf's
immediate sibling up to the sibling just below this node — `(right.digest,
Right)` is appended when coming out of a left subtree, `(left.digest, Left)`
when coming out of a right subtree. -/
def leafPaths : MerkleNode → List (List (Digest × Direction) × Digest)
  | .mk h none none => [([], h)]
  | .mk _ (some l) (some r) =>
      (leafPaths l).map (fun q => (q.1 ++ [(r.hash, Direction.Right)], q.2)) ++
      (leafPaths r).map (fun q => (q.1 ++ [(l.hash, Direction.Left)], q.2))
  | .mk _ (some l) none => leafPaths l
  | .mk _ none (some r) => leafPaths r

/-- A concrete stand-in digest function used only to instantiate witnesses. -/
def testHash (l : List Nat) : Digest :=
  [l.foldl (fun a b => (a * 31 + b) % 1000003) 7]

/-- The structural invariant of every node this library builds: childless, or
both children present with the parent digest `H (left.hash ++ right.hash)`.
One-child nodes are never built. -/
def wellFormed (H : List Nat → Digest) : MerkleNode → Prop
  | .mk _ none none => True
  | .mk h (some l) (some r) =>
      h = H (l.hash ++ r.hash) ∧ wellFormed H l ∧ wellFormed H r
  | .mk _ (some _) none => False
  | .mk _ none (some _) => False

@[simp] theorem hash_mk (h : Digest) (l r : Option MerkleNode) :
    (MerkleNode.mk h l r).hash = h := rfl

@[simp] theorem hash_combineNode (H : List Nat → Digest) (l r : MerkleNode) :
    (combineNode H l r).hash = H (l.hash ++ r.hash) := rfl

@[simp] theorem leafHashes_combineNode (H : List Nat → Digest) (l r : MerkleNode) :
    leafHashes (combineNode H l r) = leafHashes l ++ leafHashes r := rfl

/-- A proof produced by the search recomputes, by the verifier's fold, exactly
the digest of the node the search started from. -/
theorem dfs_sound (H : List Nat → Digest) :
    ∀ (n : MerkleNode) (target : Digest) (p : List (Digest × Direction)),
      wellFormed H n → dfs_generate_proof n target = some p →
      p.foldl (verifyStep H) target = n.hash
  | .mk h none none, target, p, _, hp => by
    simp only [dfs_generate_proof] at hp
    by_cases he : h = target
    · subst he
      simp at hp
      subst hp; simp
    · simp [he] at hp
  | .mk h (some l) (some r), target, p, hwf, hp => by
    obtain ⟨hh, hwl, hwr⟩ := hwf
    simp only [dfs_generate_proof] at hp
    cases hl : dfs_generate_proof l target with
    | some q =>
      rw [hl] at hp
      simp only [Option.some.injEq] at hp
      subst hp
      rw [List.foldl_concat]
      have := dfs_sound H l target q hwl hl
      simp [verifyStep, this, hh]
    | none =>
      rw [hl] at hp
      cases hr : dfs_generate_proof r target with
      | some q =>
        rw [hr] at hp
        simp only [Option.some.injEq] at hp
        subst hp
        rw [List.foldl_concat]
        have := dfs_sound H r target q hwr hr
        simp [verifyStep, this, hh]
      | none => rw [hr] at hp; exact absurd hp (by simp)
  | .mk _ (some _) none, _, _, hwf, _ => absurd hwf (by simp [wellFormed])
  | .mk _ none (some _), _, _, hwf, _ => absurd hwf (by simp [wellFormed])

/-- The search succeeds exactly when the target occurs among the node's leaf
digests. -/
theorem dfs_isSome_iff_mem :
    ∀ (n : MerkleNode) (target : Digest),
      (dfs_generate_proof n target).isSome ↔ target ∈ leafHashes n
  | .mk h none none, target => by
    simp only [dfs_generate_proof, leafHashes]
    by_cases he : h = target <;> simp [he, eq_comm]
  | .mk h (some l) (some r), target => by
    simp only [dfs_generate_proof, leafHashes, List.mem_append]
    cases hl : dfs_generate_proof l target with
    | some q =>
      have := dfs_isSome_iff_mem l target
      rw [hl] at this
      simp at this
      simp [this]
    | none =>
      have hml := dfs_isSome_iff_mem l target
      rw [hl] at hml
      simp at hml
      cases hr : dfs_generate_proof r target with
      | some q =>
        have := dfs_isSome_iff_mem r target
        rw [hr] at this
        simp at this
        simp [this]
      | none =>
        have hmr := dfs_isSome_iff_mem r target
        rw [hr] at hmr
        simp at hmr
        simp [hml, hmr]
  | .mk h (some l) none, target => by
    simp only [dfs_generate_proof, leafHashes]
    exact dfs_isSome_iff_mem l target
  | .mk h none (some r), target => by
    simp only [dfs_generate_proof, leafHashes]
    exact dfs_isSome_iff_mem r target

/-- A target absent from the leaf fringe makes the search fail. -/
theorem dfs_none_of_not_mem (n : MerkleNode) (target : Digest)
    (h : target ∉ leafHashes n) : dfs_generate_proof n target = none := by
  have := dfs_isSome_iff_mem n target
  cases hd : dfs_generate_proof n target with
  | none => rfl
  | some q => rw [hd] at this; simp at this; exact absurd this h

/-- The search is exactly "first matching leaf in left-to-right order": it
returns the sibling path stored in `leafPaths` for the first leaf whose digest
is the target. -/
theorem dfs_eq_find :
    ∀ (n : MerkleNode) (target : Digest),
      dfs_generate_proof n target =
        Option.map Prod.fst
          ((leafPaths n).find? (fun q => decide (q.2 = target)))
  | .mk h none none, target => by
    simp only [dfs_generate_proof, leafPaths, List.find?]
    by_cases he : h = target <;> simp [he]
  | .mk h (some l) (some r), target => by
    simp only [dfs_generate_proof, leafPaths, List.find?_append, List.find?_map]
    have hfl := dfs_eq_find l target
    have hfr := dfs_eq_find r target
    cases hl : (leafPaths l).find? (fun q => decide (q.2 = target)) with
    | some q =>
      rw [hl] at hfl
      simp only [hfl, Option.map_some]
      have : (Function.comp (fun q => decide (q.2 = target))
          (fun q : List (Digest × Direction) × Digest =>
            (q.1 ++ [(r.hash, Direction.Right)], q.2))) =
          (fun q : List (Digest × Direction) × Digest => decide (q.2 = target)) := rfl
      rw [this, hl]
      simp
    | none =>
      rw [hl] at hfl
      simp only [hfl, Option.map_none]
      have hcl : (Function.comp (fun q => decide (q.2 = target))
          (fun q : List (Digest × Direction) × Digest =>
            (q.1 ++ [(r.hash, Direction.Right)], q.2))) =
          (fun q : List (Digest × Direction) × Digest => decide (q.2 = target)) := rfl
      have hcr : (Function.comp (fun q => decide (q.2 = target))
          (fun q : List (Digest × Direction) × Digest =>
            (q.1 ++ [(l.hash, Direction.Left)], q.2))) =
          (fun q : List (Digest × Direction) × Digest => decide (q.2 = target)) := rfl
      rw [hcl, hcr, hl]
      cases hr : (leafPaths r).find? (fun q => decide (q.2 = target)) with
      | some q => rw [hr] at hfr; simp [hfr]
      | none => rw [hr] at hfr; simp [hfr]
  | .mk h (some l) none, target => by
    simp only [dfs_generate_proof, leafPaths]
    exact dfs_eq_find l target
  | .mk h none (some r), target => by
    simp only [dfs_generate_proof, leafPaths]
    exact dfs_eq_find r target

/-- Pairing never empties a non-empty level. -/
theorem pairUp_ne_nil (H : List Nat → Digest) (ns : List MerkleNode)
    (h : ns ≠ []) : pairUp H ns ≠ [] := by
  have hl := pairUp_length H ns
  intro hc
  rw [hc] at hl
  simp at hl
  have : 0 < ns.length := List.length_pos.mpr h
  omega

/-- Every node of a paired level combines two nodes of the level below. -/
theorem mem_pairUp (H : List Nat → Digest) :
    ∀ (ns : List MerkleNode) (p : MerkleNode), p ∈ pairUp H ns →
      ∃ a ∈ ns, ∃ b ∈ ns, p = combineNode H a b
  | [], p, hp => by simp [pairUp] at hp
  | [x], p, hp => by
    simp [pairUp] at hp
    exact ⟨x, by simp, x, by simp, hp⟩
  | x :: y :: rest, p, hp => by
    simp only [pairUp, List.mem_cons] at hp
    rcases hp with hp | hp
    · exact ⟨x, by simp, y, by simp, hp⟩
    · obtain ⟨a, ha, b, hb, hab⟩ := mem_pairUp H rest p hp
      exact ⟨a, by simp [ha], b, by simp [hb], hab⟩

/-- Unfolding step of the tree builder on a level of at least two nodes. -/
theorem build_step (H : List Nat → Digest) (ns : List MerkleNode)
    (h : 2 ≤ ns.length) :
    build_merkle_tree_recursively H ns =
      build_merkle_tree_recursively H (pairUp H ns) := by
  match ns with
  | [] => simp at h
  | [x] => simp at h
  | a :: b :: rest => rw [build_merkle_tree_recursively]

/-- Concatenated leaf fringes of a whole level. -/
def flatFringe (ns : List MerkleNode) : List Digest :=
  (ns.map leafHashes).flatten

@[simp] theorem flatFringe_nil : flatFringe [] = [] := rfl

@[simp] theorem flatFringe_cons (n : MerkleNode) (ns : List MerkleNode) :
    flatFringe (n :: ns) = leafHashes n ++ flatFringe ns := rfl

/-- Pairing a level appends only duplicated digests: the original fringe is an
initial segment of the paired level's fringe. -/
theorem pairUp_flatFringe (H : List Nat → Digest) :
    ∀ ns : List MerkleNode,
      ∃ extra, flatFringe (pairUp H ns) = flatFringe ns ++ extra
  | [] => ⟨[], rfl⟩
  | [x] => ⟨leafHashes x, by simp [pairUp]⟩
  | x :: y :: rest => by
    obtain ⟨extra, hextra⟩ := pairUp_flatFringe H rest
    exact ⟨extra, by simp [pairUp, hextra]⟩

/-- Pairing a level preserves fringe membership in both directions. -/
theorem mem_flatFringe_pairUp (H : List Nat → Digest) :
    ∀ (ns : List MerkleNode) (x : Digest),
      x ∈ flatFringe (pairUp H ns) ↔ x ∈ flatFringe ns
  | [], x => by simp [pairUp]
  | [n], x => by simp [pairUp, or_self]
  | a :: b :: rest, x => by
    have := mem_flatFringe_pairUp H rest x
    simp only [pairUp, flatFringe_cons, leafHashes_combineNode, List.mem_append,
      this]
    tauto

/-- The built tree's fringe extends the level's fringe by duplicated digests
only. -/
theorem build_flatFringe (H : List Nat → Digest) :
    ∀ ns : List MerkleNode, ns ≠ [] →
      ∃ extra,
        leafHashes (build_merkle_tree_recursively H ns) = flatFringe ns ++ extra
  | [], h => absurd rfl h
  | [n], _ => ⟨[], by simp [build_merkle_tree_recursively]⟩
  | a :: b :: rest, _ => by
    obtain ⟨e1, he1⟩ := pairUp_flatFringe H (a :: b :: rest)
    obtain ⟨e2, he2⟩ :=
      build_flatFringe H (pairUp H (a :: b :: rest))
        (pairUp_ne_nil H _ (by simp))
    rw [build_merkle_tree_recursively]
    exact ⟨e1 ++ e2, by rw [he2, he1, List.append_assoc]⟩
termination_by ns => ns.length
decreasing_by simp [pairUp_length]; omega

/-- Fringe membership of the built tree is fringe membership of the level. -/
theorem mem_leafHashes_build (H : List Nat → Digest) :
    ∀ (ns : List MerkleNode), ns ≠ [] → ∀ (x : Digest),
      x ∈ leafHashes (build_merkle_tree_recursively H ns) ↔ x ∈ flatFringe ns
  | [], h => absurd rfl h
  | [n], _ => by intro x; simp [build_merkle_tree_recursively]
  | a :: b :: rest, _ => by
    intro x
    rw [build_merkle_tree_recursively]
    rw [mem_leafHashes_build H (pairUp H (a :: b :: rest))
      (pairUp_ne_nil H _ (by simp)) x]
    exact mem_flatFringe_pairUp H _ x
termination_by ns => ns.length
decreasing_by simp [pairUp_length]; omega

/-- The builder preserves well-formedness of every node of the level. -/
theorem build_wellFormed (H : List Nat → Digest) :
    ∀ (ns : List MerkleNode), ns ≠ [] →
      (∀ m ∈ ns, wellFormed H m) →
      wellFormed H (build_merkle_tree_recursively H ns)
  | [], h, _ => absurd rfl h
  | [n], _, hwf => by
    rw [build_merkle_tree_recursively]
    exact hwf n (by simp)
  | a :: b :: rest, _, hwf => by
    rw [build_merkle_tree_recursively]
    refine build_wellFormed H (pairUp H (a :: b :: rest))
      (pairUp_ne_nil H _ (by simp)) ?_
    intro m hm
    obtain ⟨x, hx, y, hy, hxy⟩ := mem_pairUp H _ m hm
    subst hxy
    exact ⟨rfl, hwf x hx, hwf y hy⟩
termination_by ns => ns.length
decreasing_by all_goals simp [pairUp_length]; omega

/-- On a level of nodes of uniform depth `d` whose sibling paths all have
length `d`, the builder yields a root of depth `d + ⌈log₂ (level length)⌉`,
and every sibling path of that root has that same length. -/
theorem build_uniform (H : List Nat → Digest) :
    ∀ (ns : List MerkleNode) (d : Nat), ns ≠ [] →
      (∀ m ∈ ns, m.depth = d ∧ ∀ q ∈ leafPaths m, q.1.length = d) →
      (build_merkle_tree_recursively H ns).depth = d + Nat.clog 2 ns.length ∧
        ∀ q ∈ leafPaths (build_merkle_tree_recursively H ns),
          q.1.length = d + Nat.clog 2 ns.length
  | [], _, h, _ => absurd rfl h
  | [n], d, _, hu => by
    rw [build_merkle_tree_recursively]
    have := hu n (by simp)
    simpa using this
  | a :: b :: rest, d, _, hu => by
    rw [build_merkle_tree_recursively]
    have hlen : (a :: b :: rest).length = rest.length + 2 := by simp
    have hclog : Nat.clog 2 (rest.length + 2) =
        Nat.clog 2 ((rest.length + 2 + 1) / 2) + 1 := by
      rw [Nat.clog_of_two_le (by norm_num) (by omega)]
      congr 2
    have hup : ∀ m ∈ pairUp H (a :: b :: rest), m.depth = d + 1 ∧
        ∀ q ∈ leafPaths m, q.1.length = d + 1 := by
      intro m hm
      obtain ⟨x, hx, y, hy, hxy⟩ := mem_pairUp H _ m hm
      obtain ⟨hxd, hxp⟩ := hu x hx
      obtain ⟨hyd, hyp⟩ := hu y hy
      subst hxy
      constructor
      · simp [combineNode, MerkleNode.depth, hxd, hyd]
        omega
      · intro q hq
        simp only [combineNode, leafPaths, List.mem_append, List.mem_map] at hq
        rcases hq with ⟨q0, hq0, hq0e⟩ | ⟨q0, hq0, hq0e⟩
        · subst hq0e; simp [hxp q0 hq0]
        · subst hq0e; simp [hyp q0 hq0]
    have hrec := build_uniform H (pairUp H (a :: b :: rest)) (d + 1)
      (pairUp_ne_nil H _ (by simp)) hup
    rw [pairUp_length] at hrec
    rw [hlen, hclog]
    constructor
    · rw [hrec.1, hlen]; omega
    · intro q hq
      rw [hrec.2 q hq, hlen]
      omega
termination_by ns => ns.length
decreasing_by simp [pairUp_length]; omega

/-- The stored leaf digests of a freshly constructed tree are the hashed
input values, in order. -/
theorem from_bytes_leaves (H : List Nat → Digest) (values : List (List Nat)) :
    (MerkleTree.from_bytes H values).leaves = values.map H := by
  simp [MerkleTree.from_bytes, build_leaves_array, List.map_map]

/-- The root of a freshly constructed tree, when the input is non-empty. -/
theorem from_bytes_root (H : List Nat → Digest) (values : List (List Nat))
    (h : values ≠ []) :
    (MerkleTree.from_bytes H values).root =
      some (build_merkle_tree_recursively H (build_leaves_array H values)) := by
  have : (build_leaves_array H values).isEmpty = false := by
    simp [build_leaves_array, List.isEmpty_iff, h]
  simp [MerkleTree.from_bytes, this]

/-- The root of a tree constructed from an empty input is absent. -/
theorem from_bytes_root_nil (H : List Nat → Digest) :
    (MerkleTree.from_bytes H []).root = none := by
  simp [MerkleTree.from_bytes, build_leaves_array]

/-- A tree determined by its stored leaf digests alone: `push` and
`from_bytes` both produce trees of this shape. -/
def ofDigests (H : List Nat → Digest) (L : List Digest) : MerkleTree :=
  let nodes := L.map (fun h => MerkleNode.mk h none none)
  ⟨if nodes.isEmpty then none
    else some (build_merkle_tree_recursively H nodes), L⟩

/-- `push` rebuilds purely from the updated stored digests. -/
theorem push_eq_ofDigests (H : List Nat → Digest) (t : MerkleTree)
    (value : List Nat) :
    t.push H value = ofDigests H (t.leaves ++ [H value]) := rfl

/-- `from_bytes` is the digest-level rebuild applied to the hashed values. -/
theorem from_bytes_eq_ofDigests (H : List Nat → Digest)
    (values : List (List Nat)) :
    MerkleTree.from_bytes H values = ofDigests H (values.map H) := by
  unfold MerkleTree.from_bytes ofDigests
  simp only [build_leaves_array, List.map_map]
  rfl

/-- Pairing a level with an even count followed by one extra node pairs the
even part and combines the extra node with a copy of itself. -/
theorem pairUp_concat_even (H : List Nat → Digest) :
    ∀ (ns : List MerkleNode) (x : MerkleNode), ns.length % 2 = 0 →
      pairUp H (ns ++ [x]) = pairUp H ns ++ [combineNode H x x]
  | [], x, _ => by simp [pairUp]
  | [_], x, h => by simp at h
  | a :: b :: rest, x, h => by
    have hr : rest.length % 2 = 0 := by simp at h; omega
    simp only [List.cons_append, pairUp, List.append_eq,
      pairUp_concat_even H rest x hr]

/-- One pairing pass on a level whose last node alone can contain the target:
the paired level keeps that shape, and the search result under the new last
node extends the old one by exactly one sibling step. -/
theorem pairUp_keeps_last (H : List Nat → Digest) :
    ∀ (init : List MerkleNode) (L : MerkleNode) (target : Digest)
      (p0 : List (Digest × Direction)),
      (∀ m ∈ init, target ∉ leafHashes m) →
      dfs_generate_proof L target = some p0 →
      ∃ init' L' e,
        pairUp H (init ++ [L]) = init' ++ [L'] ∧
        init'.length = (init.length + 2) / 2 - 1 ∧
        (∀ m ∈ init', target ∉ leafHashes m) ∧
        dfs_generate_proof L' target = some (p0 ++ [e])
  | [], L, target, p0, _, hL => by
    refine ⟨[], combineNode H L L, (L.hash, Direction.Right), by simp [pairUp],
      by simp, by simp, ?_⟩
    simp only [combineNode, dfs_generate_proof, hL]
  | [x], L, target, p0, hinit, hL => by
    have hx : dfs_generate_proof x target = none :=
      dfs_none_of_not_mem x target (hinit x (by simp))
    refine ⟨[], combineNode H x L, (x.hash, Direction.Left), by simp [pairUp],
      by simp, by simp, ?_⟩
    simp only [combineNode, dfs_generate_proof, hx, hL]
  | x :: y :: rest, L, target, p0, hinit, hL => by
    obtain ⟨init', L', e, hpair, hlen, hinit', hL'⟩ :=
      pairUp_keeps_last H rest L target p0
        (fun m hm => hinit m (by simp [hm])) hL
    refine ⟨combineNode H x y :: init', L', e, ?_, ?_, ?_, hL'⟩
    · simp only [List.cons_append, pairUp, List.append_eq, hpair]
    · simp only [List.length_cons, hlen]
      have : 1 ≤ (rest.length + 2) / 2 := by omega
      omega
    · intro m hm
      rcases List.mem_cons.mp hm with hm | hm
      · subst hm
        simp only [leafHashes_combineNode, List.mem_append]
        push_neg
        exact ⟨hinit x (by simp), hinit y (by simp)⟩
      · exact hinit' m hm

/-- Building from a level whose last node alone can contain the target yields
a root whose search result extends the last node's search result. -/
theorem build_dfs_last (H : List Nat → Digest) (target : Digest) :
    ∀ (k : Nat) (init : List MerkleNode) (L : MerkleNode)
      (p0 : List (Digest × Direction)),
      init.length ≤ k →
      (∀ m ∈ init, target ∉ leafHashes m) →
      dfs_generate_proof L target = some p0 →
      ∃ rest,
        dfs_generate_proof
          (build_merkle_tree_recursively H (init ++ [L])) target =
          some (p0 ++ rest) := by
  intro k
  induction k with
  | zero =>
    intro init L p0 hk _ hL
    have : init = [] := List.eq_nil_of_length_eq_zero (by omega)
    subst this
    rw [List.nil_append, build_merkle_tree_recursively]
    exact ⟨[], by simp [hL]⟩
  | succ k ih =>
    intro init L p0 hk hinit hL
    match init with
    | [] =>
      rw [List.nil_append, build_merkle_tree_recursively]
      exact ⟨[], by simp [hL]⟩
    | x :: xs =>
      rw [build_step H _ (by simp)]
      obtain ⟨init', L', e, hpair, hlen, hinit', hL'⟩ :=
        pairUp_keeps_last H (x :: xs) L target p0 hinit hL
      rw [hpair]
      have hk' : init'.length ≤ k := by
        simp only [List.length_cons] at hlen hk
        omega
      obtain ⟨rest', hrest'⟩ := ih init' L' (p0 ++ [e]) hk' hinit' hL'
      exact ⟨[e] ++ rest', by rw [hrest']; simp⟩

/-- The fringe of a level of childless nodes is the list of their digests. -/
theorem flatFringe_leafNodes :
    ∀ L : List Digest,
      flatFringe (L.map (fun h => MerkleNode.mk h none none)) = L
  | [] => rfl
  | h :: t => by simp [flatFringe_leafNodes t, leafHashes]

/-- The fringe of the leaf level built from input values is the list of their
digests. -/
theorem flatFringe_build_leaves (H : List Nat → Digest)
    (values : List (List Nat)) :
    flatFringe (build_leaves_array H values) = values.map H := by
  have : build_leaves_array H values =
      (values.map H).map (fun h => MerkleNode.mk h none none) := by
    simp [build_leaves_array, List.map_map]
  rw [this, flatFringe_leafNodes]

/-- Every leaf node of the leaf level is well-formed. -/
theorem build_leaves_wellFormed (H : List Nat → Digest)
    (values : List (List Nat)) :
    ∀ m ∈ build_leaves_array H values, wellFormed H m := by
  intro m hm
  simp only [build_leaves_array, List.mem_map] at hm
  obtain ⟨w, _, hw⟩ := hm
  subst hw
  simp [wellFormed]

/-- Root-absence and fringe shape of a tree rebuilt from a digest list. -/
theorem ofDigests_inv (H : List Nat → Digest) (L : List Digest) :
    ((ofDigests H L).root = none ↔ (ofDigests H L).leaves = []) ∧
    (∀ r, (ofDigests H L).root = some r →
      ∃ extra, leafHashes r = (ofDigests H L).leaves ++ extra) := by
  match L with
  | [] => exact ⟨by simp [ofDigests], by simp [ofDigests]⟩
  | h :: t =>
    have hne : (h :: t).map (fun h => MerkleNode.mk h none none) ≠ [] := by simp
    constructor
    · simp [ofDigests]
    · intro r hr
      have hthis : (ofDigests H (h :: t)).root =
          some (build_merkle_tree_recursively H
            ((h :: t).map (fun h => MerkleNode.mk h none none))) := by
        simp [ofDigests]
      rw [hthis, Option.some.injEq] at hr
      obtain ⟨extra, hextra⟩ := build_flatFringe H _ hne
      subst hr
      refine ⟨extra, ?_⟩
      rw [hextra, flatFringe_leafNodes]
      rfl

/-- Folding `push` over values, starting from a digest-determined tree,
appends the hashed values and rebuilds once per step. -/
theorem foldl_push_ofDigests (H : List Nat → Digest) :
    ∀ (values : List (List Nat)) (L : List Digest),
      List.foldl (fun t v => t.push H v) (ofDigests H L) values =
        ofDigests H (L ++ values.map H)
  | [], L => by simp
  | v :: vs, L => by
    simp only [List.foldl_cons]
    rw [push_eq_ofDigests]
    have hl : (ofDigests H L).leaves = L := rfl
    rw [hl, foldl_push_ofDigests H vs (L ++ [H v])]
    simp

/-- Claim C3. Verifier semantics: `verify_proof` is the left fold that hashes a
`Left` sibling in front of and a `Right` sibling behind the running digest,
succeeding exactly when the final digest equals the claimed root; an empty
proof is accepted exactly when the leaf digest equals the claimed root, and
the function is total, returning only a boolean. -/
theorem verify_proof_fold_semantics (H : List Nat → Digest) :
    (∀ (l : Digest) (p : List (Digest × Direction)) (r : Digest),
        verify_proof H l p r = true ↔ p.foldl (verifyStep H) l = r) ∧
    (∀ (l s : Digest) (p : List (Digest × Direction)) (r : Digest),
        verify_proof H l ((s, Direction.Left) :: p) r =
          verify_proof H (H (s ++ l)) p r) ∧
    (∀ (l s : Digest) (p : List (Digest × Direction)) (r : Digest),
        verify_proof H l ((s, Direction.Right) :: p) r =
          verify_proof H (H (l ++ s)) p r) ∧
    (∀ (l r : Digest), verify_proof H l [] r = true ↔ l = r) :=
  ⟨fun l p r => by simp [verify_proof],
   fun _ _ _ _ => rfl,
   fun _ _ _ _ => rfl,
   fun l r => by simp [verify_proof]⟩

/-- Claim C4. Odd-count duplication: the tree over three values has root digest
`H (H (H a ++ H b) ++ H (H c ++ H c))`, and in general a pairing pass over an
odd level combines the final unpaired node with a copy of itself. -/
theorem odd_level_duplication (H : List Nat → Digest) :
    (∀ a b c : List Nat,
        (MerkleTree.from_bytes H [a, b, c]).get_root =
          some (H (H (H a ++ H b) ++ H (H c ++ H c)))) ∧
    (∀ (ns : List MerkleNode) (x : MerkleNode), ns.length % 2 = 0 →
        pairUp H (ns ++ [x]) = pairUp H ns ++ [combineNode H x x]) := by
  constructor
  · intro a b c
    simp [MerkleTree.from_bytes, MerkleTree.get_root, build_leaves_array,
      build_merkle_tree_recursively, pairUp, combineNode, MerkleNode.hash]
  · exact pairUp_concat_even H

/-- Witness for the odd-duplication theorem at a concrete level. -/
theorem odd_level_duplication_witness :
    ([] : List MerkleNode).length % 2 = 0 ∧
    pairUp testHash ([] ++ [MerkleNode.mk [5] none none]) =
      pairUp testHash [] ++
        [combineNode testHash (MerkleNode.mk [5] none none)
          (MerkleNode.mk [5] none none)] :=
  ⟨rfl, (odd_level_duplication testHash).2 [] (MerkleNode.mk [5] none none) rfl⟩

/-- Claim C5. Proof-generation order and tie-break: the depth-first search
returns, for the first leaf in left-to-right order whose digest matches the
target, the sibling path ordered from the leaf's immediate sibling up to the
sibling just below the root, `Right` siblings recorded when unwinding from a
left subtree and `Left` siblings when unwinding from a right subtree. -/
theorem generate_proof_first_match :
    (∀ (n : MerkleNode) (target : Digest),
        dfs_generate_proof n target =
          Option.map Prod.fst
            ((leafPaths n).find? (fun q => decide (q.2 = target)))) ∧
    (∀ (t : MerkleTree) (target : Digest),
        t.generate_proof target =
          t.root.bind (fun r =>
            Option.map Prod.fst
              ((leafPaths r).find? (fun q => decide (q.2 = target))))) := by
  refine ⟨dfs_eq_find, fun t target => ?_⟩
  unfold MerkleTree.generate_proof
  cases t.root with
  | none => rfl
  | some r => simp [dfs_eq_find r target]

/-- Claim C6. Append is a full rebuild equivalent to batch construction:
pushing `v1 … vn` onto the empty tree yields exactly
`from_bytes [v1 … vn]` (same root, same stored leaves), and each push
appends the hashed value and rebuilds the root over the whole updated digest
list. -/
theorem push_fold_eq_from_bytes (H : List Nat → Digest)
    (values : List (List Nat)) :
    (List.foldl (fun t v => t.push H v) (MerkleTree.from_bytes H []) values =
      MerkleTree.from_bytes H values) ∧
    (∀ (t : MerkleTree) (value : List Nat),
        (t.push H value).leaves = t.leaves ++ [H value] ∧
        (t.push H value).root =
          some (build_merkle_tree_recursively H
            ((t.leaves ++ [H value]).map (fun h => MerkleNode.mk h none none)))) := by
  constructor
  · rw [from_bytes_eq_ofDigests, from_bytes_eq_ofDigests]
    have h0 : (([] : List (List Nat)).map H) = [] := rfl
    rw [h0, foldl_push_ofDigests]
    simp
  · intro t value
    constructor
    · rfl
    · rw [push_eq_ofDigests]
      simp [ofDigests]

/-- Claim C1. Proof round trip: in any tree built from a non-empty value list,
generating a proof for the digest of any member value succeeds, and the proof
verifies against the tree's root digest. -/
theorem merkle_proof_round_trip (H : List Nat → Digest)
    (values : List (List Nat)) (hne : values ≠ [])
    (v : List Nat) (hv : v ∈ values) :
    ∃ p rh,
      (MerkleTree.from_bytes H values).generate_proof (H v) = some p ∧
      (MerkleTree.from_bytes H values).get_root = some rh ∧
      verify_proof H (H v) p rh = true := by
  have hnsne : build_leaves_array H values ≠ [] := by
    simp [build_leaves_array, hne]
  have hroot := from_bytes_root H values hne
  have hmem : H v ∈ flatFringe (build_leaves_array H values) := by
    rw [flatFringe_build_leaves]
    exact List.mem_map_of_mem H hv
  have hfr : H v ∈ leafHashes
      (build_merkle_tree_recursively H (build_leaves_array H values)) :=
    (mem_leafHashes_build H _ hnsne (H v)).mpr hmem
  have hsome := (dfs_isSome_iff_mem _ (H v)).mpr hfr
  obtain ⟨p, hp⟩ := Option.isSome_iff_exists.mp hsome
  have hwf := build_wellFormed H _ hnsne (build_leaves_wellFormed H values)
  have hfold := dfs_sound H _ (H v) p hwf hp
  refine ⟨p,
    (build_merkle_tree_recursively H (build_leaves_array H values)).hash,
    ?_, ?_, ?_⟩
  · simp [MerkleTree.generate_proof, hroot, hp]
  · simp [MerkleTree.get_root, hroot]
  · simp [verify_proof, hfold]

/-- Witness for the round-trip theorem on a concrete three-value tree. -/
theorem merkle_proof_round_trip_witness :
    (([[0], [1], [2]] : List (List Nat)) ≠ [] ∧
      [1] ∈ ([[0], [1], [2]] : List (List Nat))) ∧
    ∃ p rh,
      (MerkleTree.from_bytes testHash [[0], [1], [2]]).generate_proof
        (testHash [1]) = some p ∧
      (MerkleTree.from_bytes testHash [[0], [1], [2]]).get_root = some rh ∧
      verify_proof testHash (testHash [1]) p rh = true :=
  ⟨⟨by decide, by decide⟩,
    merkle_proof_round_trip testHash [[0], [1], [2]] (by decide) [1] (by decide)⟩

/-- Claim C2, counterexample. The stored `leaves` are NOT always the in-order
leaf digests of the root: on three values the duplicated last leaf appears
twice in the root's fringe but once in `leaves`. -/
theorem stored_leaves_fringe_counterexample :
    ¬ (∀ r : MerkleNode,
        (MerkleTree.from_bytes testHash [[0], [1], [2]]).root = some r →
        (MerkleTree.from_bytes testHash [[0], [1], [2]]).leaves =
          leafHashes r) := by
  intro hcl
  have h2 := hcl _ (from_bytes_root testHash [[0], [1], [2]] (by decide))
  rw [from_bytes_leaves] at h2
  have h3 := congrArg List.length h2
  simp only [List.length_map, List.length_cons, List.length_nil] at h3
  rw [show build_leaves_array testHash [[0], [1], [2]] =
      [MerkleNode.mk (testHash [0]) none none,
       MerkleNode.mk (testHash [1]) none none,
       MerkleNode.mk (testHash [2]) none none] from rfl] at h3
  rw [build_step testHash _ (by simp)] at h3
  rw [show pairUp testHash
      [MerkleNode.mk (testHash [0]) none none,
       MerkleNode.mk (testHash [1]) none none,
       MerkleNode.mk (testHash [2]) none none] =
      [combineNode testHash (MerkleNode.mk (testHash [0]) none none)
        (MerkleNode.mk (testHash [1]) none none),
       combineNode testHash (MerkleNode.mk (testHash [2]) none none)
        (MerkleNode.mk (testHash [2]) none none)] from rfl] at h3
  rw [build_step testHash _ (by simp)] at h3
  rw [show build_merkle_tree_recursively testHash (pairUp testHash
      [combineNode testHash (MerkleNode.mk (testHash [0]) none none)
        (MerkleNode.mk (testHash [1]) none none),
       combineNode testHash (MerkleNode.mk (testHash [2]) none none)
        (MerkleNode.mk (testHash [2]) none none)]) =
      build_merkle_tree_recursively testHash [combineNode testHash
        (combineNode testHash (MerkleNode.mk (testHash [0]) none none)
          (MerkleNode.mk (testHash [1]) none none))
        (combineNode testHash (MerkleNode.mk (testHash [2]) none none)
          (MerkleNode.mk (testHash [2]) none none))] from rfl] at h3
  rw [show build_merkle_tree_recursively testHash [combineNode testHash
        (combineNode testHash (MerkleNode.mk (testHash [0]) none none)
          (MerkleNode.mk (testHash [1]) none none))
        (combineNode testHash (MerkleNode.mk (testHash [2]) none none)
          (MerkleNode.mk (testHash [2]) none none))] =
      combineNode testHash
        (combineNode testHash (MerkleNode.mk (testHash [0]) none none)
          (MerkleNode.mk (testHash [1]) none none))
        (combineNode testHash (MerkleNode.mk (testHash [2]) none none)
          (MerkleNode.mk (testHash [2]) none none)) from
    by rw [build_merkle_tree_recursively]] at h3
  simp [leafHashes] at h3

/-- Claim C2, amended. After every `from_bytes` and after every `push`, the
stored `leaves` sequence is an initial segment of the in-order leaf digests of
the root node when the root is present, and the root is absent iff the leaves
sequence is empty. -/
theorem stored_leaves_fringe_invariant (H : List Nat → Digest) :
    (∀ values : List (List Nat),
        ((MerkleTree.from_bytes H values).root = none ↔
          (MerkleTree.from_bytes H values).leaves = []) ∧
        (∀ r, (MerkleTree.from_bytes H values).root = some r →
          ∃ extra,
            leafHashes r = (MerkleTree.from_bytes H values).leaves ++ extra)) ∧
    (∀ (t : MerkleTree) (value : List Nat),
        ((t.push H value).root = none ↔ (t.push H value).leaves = []) ∧
        (∀ r, (t.push H value).root = some r →
          ∃ extra, leafHashes r = (t.push H value).leaves ++ extra)) := by
  constructor
  · intro values
    rw [from_bytes_eq_ofDigests]
    exact ofDigests_inv H (values.map H)
  · intro t value
    rw [push_eq_ofDigests]
    exact ofDigests_inv H (t.leaves ++ [H value])

/-- Witness for the amended invariant on a concrete one-value tree. -/
theorem stored_leaves_fringe_witness :
    (MerkleTree.from_bytes testHash [[0]]).root =
      some (MerkleNode.mk (testHash [0]) none none) ∧
    ∃ extra, leafHashes (MerkleNode.mk (testHash [0]) none none) =
      (MerkleTree.from_bytes testHash [[0]]).leaves ++ extra :=
  ⟨by rw [from_bytes_root testHash [[0]] (by decide)]
      rw [show build_leaves_array testHash [[0]] =
        [MerkleNode.mk (testHash [0]) none none] from rfl]
      rw [build_merkle_tree_recursively],
   ((stored_leaves_fringe_invariant testHash).1 [[0]]).2
      (MerkleNode.mk (testHash [0]) none none)
      (by rw [from_bytes_root testHash [[0]] (by decide)]
          rw [show build_leaves_array testHash [[0]] =
            [MerkleNode.mk (testHash [0]) none none] from rfl]
          rw [build_merkle_tree_recursively])⟩

/-- Claim C7. Tree depth and proof length: a tree over `n ≥ 1` values has depth
`⌈log₂ n⌉`, and every successfully generated proof has exactly `⌈log₂ n⌉`
elements. -/
theorem proof_length_clog (H : List Nat → Digest) (values : List (List Nat))
    (hn : 1 ≤ values.length) :
    (∀ r, (MerkleTree.from_bytes H values).root = some r →
        r.depth = Nat.clog 2 values.length) ∧
    (∀ (target : Digest) (p : List (Digest × Direction)),
        (MerkleTree.from_bytes H values).generate_proof target = some p →
        p.length = Nat.clog 2 values.length) := by
  have hne : values ≠ [] := by
    intro h; subst h; simp at hn
  have hnsne : build_leaves_array H values ≠ [] := by
    simp [build_leaves_array, hne]
  have hlen : (build_leaves_array H values).length = values.length := by
    simp [build_leaves_array]
  have hunif : ∀ m ∈ build_leaves_array H values,
      m.depth = 0 ∧ ∀ q ∈ leafPaths m, q.1.length = 0 := by
    intro m hm
    simp only [build_leaves_array, List.mem_map] at hm
    obtain ⟨w, _, hw⟩ := hm
    subst hw
    refine ⟨rfl, ?_⟩
    intro q hq
    simp only [leafPaths, List.mem_singleton] at hq
    subst hq
    rfl
  have huni := build_uniform H (build_leaves_array H values) 0 hnsne hunif
  rw [hlen] at huni
  have hroot := from_bytes_root H values hne
  constructor
  · intro r hr
    rw [hroot, Option.some.injEq] at hr
    subst hr
    simpa using huni.1
  · intro target p hp
    simp only [MerkleTree.generate_proof, hroot, Option.some_bind] at hp
    rw [dfs_eq_find] at hp
    cases hfind : (leafPaths
        (build_merkle_tree_recursively H (build_leaves_array H values))).find?
        (fun q => decide (q.2 = target)) with
    | none => rw [hfind] at hp; simp at hp
    | some q =>
      rw [hfind] at hp
      simp at hp
      subst hp
      have hqmem := List.mem_of_find?_eq_some hfind
      have := huni.2 q hqmem
      simpa using this

/-- Witness for the proof-length theorem on a concrete three-value tree. -/
theorem proof_length_clog_witness :
    1 ≤ ([[0], [1], [2]] : List (List Nat)).length ∧
    ([(testHash [1], Direction.Right),
      (testHash (testHash [2] ++ testHash [2]), Direction.Right)] :
        List (Digest × Direction)).length =
      Nat.clog 2 ([[0], [1], [2]] : List (List Nat)).length :=
  ⟨by decide,
    (proof_length_clog testHash [[0], [1], [2]] (by decide)).2 (testHash [0]) _
      (by simp [MerkleTree.from_bytes, MerkleTree.generate_proof,
        build_leaves_array, build_merkle_tree_recursively, pairUp, combineNode,
        MerkleNode.hash, dfs_generate_proof, testHash])⟩

/-- Claim C8. Absent results instead of errors: empty input yields an absent
root; proof generation on a rootless tree is absent; and proof generation for
a digest matching no stored leaf digest is absent. -/
theorem absent_results_not_errors (H : List Nat → Digest) :
    ((MerkleTree.from_bytes H []).root = none) ∧
    (∀ (t : MerkleTree) (target : Digest), t.root = none →
        t.generate_proof target = none) ∧
    (∀ (values : List (List Nat)) (target : Digest),
        target ∉ (MerkleTree.from_bytes H values).leaves →
        (MerkleTree.from_bytes H values).generate_proof target = none) := by
  refine ⟨from_bytes_root_nil H,
    fun t target ht => by simp [MerkleTree.generate_proof, ht], ?_⟩
  intro values target hmem
  by_cases hne : values = []
  · subst hne
    simp [MerkleTree.generate_proof, from_bytes_root_nil]
  · have hroot := from_bytes_root H values hne
    rw [from_bytes_leaves] at hmem
    have hnsne : build_leaves_array H values ≠ [] := by
      simp [build_leaves_array, hne]
    have hnot : target ∉ leafHashes
        (build_merkle_tree_recursively H (build_leaves_array H values)) := by
      rw [mem_leafHashes_build H _ hnsne, flatFringe_build_leaves]
      exact hmem
    simp [MerkleTree.generate_proof, hroot, dfs_none_of_not_mem _ _ hnot]

/-- Witness for the absent-results theorem at a concrete non-member digest. -/
theorem absent_results_witness :
    ([99] ∉ (MerkleTree.from_bytes testHash [[0], [1]]).leaves) ∧
    (MerkleTree.from_bytes testHash [[0], [1]]).generate_proof [99] = none :=
  ⟨by decide,
    (absent_results_not_errors testHash).2.2 [[0], [1]] [99] (by decide)⟩

/-- The empty state: no root and no stored leaves. -/
def MerkleTree.emptyState (t : MerkleTree) : Prop :=
  t.root = none ∧ t.leaves = []

/-- The non-empty state: a present root and a non-empty stored leaf list. -/
def MerkleTree.nonEmptyState (t : MerkleTree) : Prop :=
  (∃ r, t.root = some r) ∧ t.leaves ≠ []

/-- Tree states reachable through the public constructors and mutators:
constructed by `from_bytes`, then mutated only by `push`. -/
inductive Reachable (H : List Nat → Digest) : MerkleTree → Prop where
  | construct (values : List (List Nat)) :
      Reachable H (MerkleTree.from_bytes H values)
  | step (t : MerkleTree) (value : List Nat) :
      Reachable H t → Reachable H (t.push H value)

/-- Claim C9. State machine: every reachable tree is empty or non-empty;
`from_bytes` lands in the empty state exactly on empty input; `push` always
lands in the non-empty state; and no push ever returns to the empty state. -/
theorem tree_state_machine (H : List Nat → Digest) :
    (∀ t, Reachable H t → t.emptyState ∨ t.nonEmptyState) ∧
    (∀ values : List (List Nat),
        (MerkleTree.from_bytes H values).emptyState ↔ values = []) ∧
    (∀ (t : MerkleTree) (value : List Nat), (t.push H value).nonEmptyState) ∧
    (∀ (t : MerkleTree) (value : List Nat), ¬ (t.push H value).emptyState) := by
  have hpush : ∀ (t : MerkleTree) (value : List Nat),
      (t.push H value).nonEmptyState := by
    intro t value
    constructor
    · refine ⟨build_merkle_tree_recursively H
        ((t.leaves ++ [H value]).map (fun h => MerkleNode.mk h none none)), ?_⟩
      rw [push_eq_ofDigests]
      simp [ofDigests]
    · rw [push_eq_ofDigests]
      simp [ofDigests]
  have hfb : ∀ values : List (List Nat),
      (MerkleTree.from_bytes H values).emptyState ↔ values = [] := by
    intro values
    constructor
    · rintro ⟨hroot, -⟩
      by_contra hne
      rw [from_bytes_root H values hne] at hroot
      exact Option.noConfusion hroot
    · rintro rfl
      exact ⟨from_bytes_root_nil H, by rw [from_bytes_leaves]; rfl⟩
  refine ⟨?_, hfb, hpush, ?_⟩
  · intro t hr
    induction hr with
    | construct values =>
      by_cases hne : values = []
      · subst hne
        exact Or.inl ((hfb []).mpr rfl)
      · refine Or.inr ⟨⟨_, from_bytes_root H values hne⟩, ?_⟩
        rw [from_bytes_leaves]
        simp [hne]
    | step t value _ _ =>
      exact Or.inr (hpush t value)
  · intro t value hc
    have := (hpush t value).2
    exact this hc.2

/-- Witness for the state-machine theorem at the tree built from no values. -/
theorem tree_state_machine_witness :
    (MerkleTree.from_bytes testHash []).emptyState ∨
      (MerkleTree.from_bytes testHash []).nonEmptyState :=
  (tree_state_machine testHash).1 (MerkleTree.from_bytes testHash [])
    (Reachable.construct [])

/-- Claim C10. Self-sibling edge case: in a tree over an odd number `n ≥ 3` of
values with pairwise distinct digests, the proof generated for the last
value's digest starts with that same digest tagged `Right` — the duplicated
last leaf serves as its own sibling — and the proof still verifies against
the root digest. -/
theorem duplicated_last_leaf_self_sibling (H : List Nat → Digest)
    (values : List (List Nat)) (h3 : 3 ≤ values.length)
    (hodd : values.length % 2 = 1) (hnd : (values.map H).Nodup) :
    ∃ (v : List Nat) (rest : List (Digest × Direction)) (rh : Digest),
      values.getLast? = some v ∧
      (MerkleTree.from_bytes H values).generate_proof (H v) =
        some ((H v, Direction.Right) :: rest) ∧
      (MerkleTree.from_bytes H values).get_root = some rh ∧
      verify_proof H (H v) ((H v, Direction.Right) :: rest) rh = true := by
  have hne : values ≠ [] := by
    intro h; subst h; simp at h3
  obtain ⟨v, hlast⟩ : ∃ v, values.getLast? = some v :=
    ⟨values.getLast hne, List.getLast?_eq_getLast values hne⟩
  have hsplit : values.dropLast ++ [v] = values := by
    rw [List.getLast?_eq_getLast values hne, Option.some.injEq] at hlast
    rw [← hlast]
    exact List.dropLast_append_getLast hne
  have hmap : values.map H = values.dropLast.map H ++ [H v] := by
    conv_lhs => rw [← hsplit]
    simp
  have hnotin0 : ∀ w ∈ values.dropLast, H v ≠ H w := by
    intro w hw hcontra
    rw [hmap, List.nodup_append] at hnd
    exact hnd.2.2 (List.mem_map_of_mem H hw) (by simp [hcontra])
  have hns : build_leaves_array H values =
      build_leaves_array H values.dropLast ++
        [MerkleNode.mk (H v) none none] := by
    conv_lhs => rw [← hsplit]
    simp [build_leaves_array]
  have hinitlen : (build_leaves_array H values.dropLast).length =
      values.length - 1 := by
    simp [build_leaves_array]
  have hev : (build_leaves_array H values.dropLast).length % 2 = 0 := by
    rw [hinitlen]; omega
  have hnotin : ∀ m ∈ build_leaves_array H values.dropLast,
      H v ∉ leafHashes m := by
    intro m hm
    simp only [build_leaves_array, List.mem_map] at hm
    obtain ⟨w, hw, hwm⟩ := hm
    subst hwm
    simp only [leafHashes, List.mem_singleton]
    exact hnotin0 w hw
  have hpair1 := pairUp_concat_even H (build_leaves_array H values.dropLast)
    (MerkleNode.mk (H v) none none) hev
  have hL1 : dfs_generate_proof
      (combineNode H (MerkleNode.mk (H v) none none)
        (MerkleNode.mk (H v) none none)) (H v) =
      some [(H v, Direction.Right)] := by
    simp [combineNode, dfs_generate_proof, MerkleNode.hash]
  have hnotin1 : ∀ m ∈ pairUp H (build_leaves_array H values.dropLast),
      H v ∉ leafHashes m := by
    intro m hm
    obtain ⟨a, ha, b, hb, hab⟩ := mem_pairUp H _ m hm
    subst hab
    simp only [leafHashes_combineNode, List.mem_append]
    push_neg
    exact ⟨hnotin a ha, hnotin b hb⟩
  obtain ⟨rest, hrest⟩ := build_dfs_last H (H v)
    (pairUp H (build_leaves_array H values.dropLast)).length
    (pairUp H (build_leaves_array H values.dropLast))
    (combineNode H (MerkleNode.mk (H v) none none)
      (MerkleNode.mk (H v) none none))
    [(H v, Direction.Right)] le_rfl hnotin1 hL1
  have hb2 : 2 ≤ (build_leaves_array H values).length := by
    simp only [build_leaves_array, List.length_map]
    omega
  have hbuild : build_merkle_tree_recursively H (build_leaves_array H values) =
      build_merkle_tree_recursively H
        (pairUp H (build_leaves_array H values.dropLast) ++
          [combineNode H (MerkleNode.mk (H v) none none)
            (MerkleNode.mk (H v) none none)]) := by
    rw [build_step H _ hb2]
    rw [hns, hpair1]
  have hdfs : dfs_generate_proof
      (build_merkle_tree_recursively H (build_leaves_array H values)) (H v) =
      some ((H v, Direction.Right) :: rest) := by
    rw [hbuild, hrest]
    rfl
  have hroot := from_bytes_root H values hne
  have hnsne : build_leaves_array H values ≠ [] := by
    simp [build_leaves_array, hne]
  have hwf := build_wellFormed H _ hnsne (build_leaves_wellFormed H values)
  have hfold := dfs_sound H _ (H v) _ hwf hdfs
  refine ⟨v, rest,
    (build_merkle_tree_recursively H (build_leaves_array H values)).hash,
    hlast, ?_, ?_, ?_⟩
  · simp [MerkleTree.generate_proof, hroot, hdfs]
  · simp [MerkleTree.get_root, hroot]
  · simp [verify_proof, hfold]

/-- Witness for the self-sibling theorem on a concrete three-value tree. -/
theorem duplicated_last_leaf_witness :
    (3 ≤ ([[0], [1], [2]] : List (List Nat)).length ∧
      ([[0], [1], [2]] : List (List Nat)).length % 2 = 1 ∧
      (([[0], [1], [2]] : List (List Nat)).map testHash).Nodup) ∧
    ∃ (v : List Nat) (rest : List (Digest × Direction)) (rh : Digest),
      ([[0], [1], [2]] : List (List Nat)).getLast? = some v ∧
      (MerkleTree.from_bytes testHash [[0], [1], [2]]).generate_proof
        (testHash v) = some ((testHash v, Direction.Right) :: rest) ∧
      (MerkleTree.from_bytes testHash [[0], [1], [2]]).get_root = some rh ∧
      verify_proof testHash (testHash v)
        ((testHash v, Direction.Right) :: rest) rh = true :=
  ⟨⟨by decide, by decide, by decide⟩,
    duplicated_last_leaf_self_sibling testHash [[0], [1], [2]]
      (by decide) (by decide) (by decide)⟩
